import Mathlib

/-!
Verification development for the tile-based whole-slide classification
pipeline (`assets/inference.py` and the orchestrating `main.py`).

The Python source is shallowly embedded: pure index arithmetic becomes Lean
functions on `Nat`/`Int`, Python exceptions become `Option`/`Except` `none`
/`error` results, NumPy calls are embedded via their documented semantics on
the (sorted) inputs the code feeds them, and geometric polygons are modelled
as finite point sets (only `union` and `intersects` matter to the code
under study).
-/

namespace WeakSeg

/-! ## Python list indexing

`pyIndex len i` resolves a Python subscript `i` against a sequence of length
`len`: a non-negative index must be `< len`, a negative index `i` is
`len + i` provided `-len ≤ i`; anything else raises `IndexError`, modelled
as `none`. -/

def pyIndex (len : Nat) (i : Int) : Option Nat :=
  if 0 ≤ i then
    if i < (len : Int) then some i.toNat else none
  else
    if -(len : Int) ≤ i then some (i + (len : Int)).toNat else none

/-! ## `datasets_size_cumsum` (inference.py, lines 76-79)

`np.concatenate([np.array([0]), np.cumsum(sizes[:-1])])`: the exclusive
prefix-sum vector of the per-dataset sizes — entry `k` is the sum of the
first `k` sizes, and the final size is dropped.  For `n ≥ 1` datasets the
vector has exactly `n` entries; for `n = 0` it is `[0]`, as in NumPy. -/

def size_cumsum (sizes : List Nat) : List Nat :=
  0 :: (List.range (sizes.length - 1)).map (fun i => ((sizes.take (i + 1)).sum))

/-! ## `np.searchsorted(cumsum, index, side="right")`

On a sorted ascending array, NumPy's right-biased binary search returns the
number of entries `≤ index` (the rightmost insertion position).  The
cumulative-size vector is sorted, so we embed the call by that count.  The
probe `index` is a Python `int`, possibly negative. -/

def searchsorted_right (cumsum : List Nat) (index : Int) : Nat :=
  cumsum.countP (fun (c : Nat) => decide ((c : Int) ≤ index))

/-! ## `get_sample_indexes` (inference.py, lines 82-85) and
`MultiPolygonFilteredTopologyDataset.__getitem__` (lines 107-109)

`dataset_index = searchsorted(cumsum, index, "right") - 1` followed by
`relative_index = index - cumsum[dataset_index]`, then
`self._datasets[dataset_index][relative_index]`, whose
`TileExclusionDataset.__getitem__` subscripts the filtered-identifier list.
All three subscripts use Python semantics (`pyIndex`); an `IndexError`
anywhere yields `none`.  The result is the resolved (dataset position,
absolute position within that dataset's filtered list). -/

def multi_getitem (sizes : List Nat) (index : Int) : Option (Nat × Nat) :=
  let cumsum := size_cumsum sizes
  let dataset_index : Int := (searchsorted_right cumsum index : Int) - 1
  match pyIndex cumsum.length dataset_index with
  | none => none
  | some ci =>
    let relative_index : Int := index - (cumsum.getD ci 0 : Int)
    match pyIndex sizes.length dataset_index with
    | none => none
    | some di =>
      (pyIndex (sizes.getD di 0) relative_index).map (fun r => (di, r))

/-! ## `MultiPolygonFilteredTopologyDataset.__len__` (lines 111-112)

`self._cumsum_sizes[-1] + len(self._datasets[-1])`. -/

def multi_len (sizes : List Nat) : Nat :=
  (size_cumsum sizes).getLastD 0 + sizes.getLastD 0

/-! ## `MultiPolygonFilteredTopologyDataset.__init__` (inference.py, lines 91-105)

Each input polygon is summarized by its bounding window at the working zoom
level (the dimensions of `slide.window_from_polygon(tissue)`, which is what
`topology._image` reports) together with the number of tiles its filtered
per-polygon dataset would hold.  The constructor keeps exactly the pairs
with `topology._image.width >= max_width and topology._image.height >=
max_height`; `zip(*pairs)` then *raises `ValueError`* when the kept list is
empty — modelled as `none`.  On success the per-dataset size vector is the
kept polygons' tile counts. -/

structure PolyWindow where
  width : Nat
  height : Nat
  nTiles : Nat
deriving DecidableEq

def keep_window (max_width max_height : Nat) (p : PolyWindow) : Bool :=
  decide (max_width ≤ p.width) && decide (max_height ≤ p.height)

def multi_dataset_sizes (max_width max_height : Nat) (tissues : List PolyWindow) :
    Option (List Nat) :=
  let kept := tissues.filter (keep_window max_width max_height)
  if kept.isEmpty then none
  else some (kept.map (fun p => p.nTiles))

/-! ## Polygon merge loop of `foreground_detect` (inference.py, lines 172-184)

Shapely geometries enter the loop only through `intersects` and `union`,
which are point-set operations: `P.intersects(Q)` holds iff the two point
sets share a point, and `P.union(Q)` is their point-set union.  Polygons
are therefore modelled as finite point sets.  The loop pops the head of
the work list, scans the remaining elements for the first one it
intersects (`for i in range(len(to_check_for_merge)) ... break`); on a hit
it stores the union at that position and discards the popped polygon,
otherwise the popped polygon moves to the output list. -/

def find_first_intersecting (poly : Finset ℕ) : List (Finset ℕ) → Option Nat
  | [] => none
  | q :: qs =>
    if (poly ∩ q).Nonempty then some 0
    else (find_first_intersecting poly qs).map (fun i => i + 1)

def merge_loop : List (Finset ℕ) → List (Finset ℕ) → List (Finset ℕ)
  | [], checked => checked
  | poly :: rest, checked =>
    match find_first_intersecting poly rest with
    | some i => merge_loop (rest.set i (rest.getD i ∅ ∪ poly)) checked
    | none => merge_loop rest (checked ++ [poly])
termination_by l _ => l.length
decreasing_by
  · simp only [List.length_set, List.length_cons]
    omega
  · simp only [List.length_cons]
    omega

def merge_loop_iters : List (Finset ℕ) → List (Finset ℕ) → Nat
  | [], _ => 0
  | poly :: rest, checked =>
    match find_first_intersecting poly rest with
    | some i => merge_loop_iters (rest.set i (rest.getD i ∅ ∪ poly)) checked + 1
    | none => merge_loop_iters rest (checked ++ [poly]) + 1
termination_by l _ => l.length
decreasing_by
  · simp only [List.length_set, List.length_cons]
    omega
  · simp only [List.length_cons]
    omega

/-! ## `determine_tissue_extract_level` (inference.py, lines 129-137)

`ref_size = max(max_width, max_height)`, then
`while best_size > desired and best_level < levels - 1: best_size //= 2;
best_level += 1`.  The `while` loop is embedded structurally on the
remaining-iteration counter `levels - 1 - best_level` (the guard
`best_level < levels - 1` holds iff the counter is positive, and each pass
decrements it), so at level `best_level` the carried size is the
iterated floor-halving `ref_size / 2^best_level`. -/

def extract_go (target : Nat) : Nat → Nat → Nat → Nat
  | 0, _, level => level
  | k + 1, size, level =>
    if target < size then extract_go target k (size / 2) (level + 1) else level

def determine_tissue_extract_level (levels max_height max_width desired : Nat) : Nat :=
  extract_go desired (levels - 1) (max max_width max_height) 0

/-! ## Otsu restriction and binarization (inference.py, lines 149-156)

The grayscale image is a flattened pixel list.  The code computes
`extr_mask = np.logical_and(image > 75, image < 250)`, feeds the
boolean-mask selection `image[extr_mask]` to `skimage`'s `threshold_otsu`
(external; modelled as an arbitrary function returning a scalar
threshold), and binarizes the *full* image with `image <= threshold`. -/

def extr_mask (image : List Nat) : List Bool :=
  image.map (fun v => decide (75 < v) && decide (v < 250))

def mask_select (image : List Nat) (mask : List Bool) : List Nat :=
  ((image.zip mask).filter (fun p => p.2)).map (fun p => p.1)

def otsu_input (image : List Nat) : List Nat :=
  mask_select image (extr_mask image)

def thresh_mask (image : List Nat) (threshold : ℚ) : List Nat :=
  image.map (fun (v : Nat) => if (v : ℚ) ≤ threshold then 1 else 0)

def foreground_binarize (otsu : List Nat → ℚ) (image : List Nat) : List Nat :=
  thresh_mask image (otsu (otsu_input image))

/-! ## `filter_by_shape` (inference.py, lines 186-196)

Shapely bounding-box coordinates are floats; they are modelled as
rationals.  `if width > height: return (width / height) < 20
else: return (height / width) < 20`. -/

def filter_by_shape (xmin ymin xmax ymax : ℚ) : Bool :=
  let width := xmax - xmin
  let height := ymax - ymin
  if height < width then decide (width / height < 20) else decide (height / width < 20)

/-! ## `classify` aggregation (inference.py, lines 231-247)

`probas` is the per-tile probability matrix (one row of `n_classes`
rationals per processed tile).  `classes = np.argmax(probas, axis=1)`
takes each row's arg-max — NumPy returns the *first* maximum, so ties
break to the lowest class index, captured by the strict `bestV < v`
update below — and the function returns `int(np.max(classes))`, the
largest per-tile vote.  `np.argmax`/`np.max` raise on empty input; the
`[]` cases below are don't-care defaults, and the theorems only use
non-empty inputs. -/

def argmax_go (best : Nat) (bestV : ℚ) (i : Nat) : List ℚ → Nat
  | [] => best
  | v :: vs =>
    if bestV < v then argmax_go i v (i + 1) vs else argmax_go best bestV (i + 1) vs

def np_argmax : List ℚ → Nat
  | [] => 0
  | v :: vs => argmax_go 0 v 1 vs

def np_max_nat : List Nat → Nat
  | [] => 0
  | v :: vs => vs.foldl max v

def classify_classes (probas : List (List ℚ)) : List Nat :=
  probas.map np_argmax

def classify_decision (probas : List (List ℚ)) : Nat :=
  np_max_nat (classify_classes probas)

/-- Refinement comparison only — this definition follows the *spec's*
words, not the source: "slide decision = the class with the maximum vote
count across all processed tiles (ties broken by lowest class index)". -/
def spec_majority_decision (n_classes : Nat) (classes : List Nat) : Nat :=
  np_argmax ((List.range n_classes).map (fun c => ((classes.count c : Nat) : ℚ)))

/-! ## Orchestrator per-slide error handling (main.py, lines 62-85)

For each test slide the orchestrator runs `classify` inside
`try: ... except Exception`: the call's outcome is modelled as an
`Except` value — `ok cls_dict` with the per-class vote dictionary on
success, `error` when *anything* inside the `try` block raises.  On
success the feature row is `[cls_dict.get(cls, 0) for cls in range(4)]`;
on error the orchestrator prints and substitutes `x[i] = [1, 0, 0, 0]`
(one vote, all of it on class 0) and the `for` loop moves on to the next
slide; no exception escapes. -/

def dict_get (d : List (Nat × Nat)) (k : Nat) (default : Nat) : Nat :=
  match d.find? (fun p => p.1 == k) with
  | some p => p.2
  | none => default

def slide_features : Except String (List (Nat × Nat)) → List Nat
  | Except.ok cls_dict => (List.range 4).map (fun c => dict_get cls_dict c 0)
  | Except.error _ => [1, 0, 0, 0]

def main_loop (results : List (Except String (List (Nat × Nat)))) : List (List Nat) :=
  results.map slide_features

/-! ## Theorems -/

/-! ### Basic facts about the cumulative-size vector -/

theorem size_cumsum_eq_map (sizes : List Nat) (h : sizes ≠ []) :
    size_cumsum sizes =
      (List.range sizes.length).map (fun k => (sizes.take k).sum) := by
  have hlen : sizes.length = (sizes.length - 1) + 1 := by
    cases sizes with
    | nil => simp at h
    | cons a l => simp
  rw [size_cumsum, hlen, List.range_succ_eq_map]
  simp

theorem size_cumsum_length (sizes : List Nat) (h : sizes ≠ []) :
    (size_cumsum sizes).length = sizes.length := by
  rw [size_cumsum_eq_map sizes h]
  simp

theorem size_cumsum_getD (sizes : List Nat) (h : sizes ≠ []) (k : Nat)
    (hk : k < sizes.length) :
    (size_cumsum sizes).getD k 0 = (sizes.take k).sum := by
  rw [size_cumsum_eq_map sizes h]
  rw [List.getD_eq_getElem?_getD, List.getElem?_map]
  simp [List.getElem?_range hk]

theorem getLastD_eq_getD (l : List Nat) :
    l.getLastD 0 = l.getD (l.length - 1) 0 := by
  rw [List.getLastD_eq_getLast?, List.getLast?_eq_getElem?, List.getD_eq_getElem?_getD]

theorem multi_len_eq_sum (sizes : List Nat) (h : sizes ≠ []) :
    multi_len sizes = sizes.sum := by
  have hpos : 0 < sizes.length := List.length_pos.mpr h
  have hlt : sizes.length - 1 < sizes.length := Nat.sub_lt hpos Nat.one_pos
  rw [multi_len, getLastD_eq_getD, getLastD_eq_getD, size_cumsum_length sizes h,
    size_cumsum_getD sizes h _ hlt]
  have hsum := List.sum_take_succ sizes (sizes.length - 1) hlt
  rw [Nat.sub_add_cancel hpos, List.take_length] at hsum
  rw [List.getD_eq_getElem?_getD, List.getElem?_eq_getElem hlt]
  simpa using hsum.symm

/-! ### Resolving a flat index: characterization of the right-biased search -/

theorem sum_take_mono (sizes : List Nat) {j k : Nat} (h : j ≤ k) :
    (sizes.take j).sum ≤ (sizes.take k).sum := by
  conv_rhs => rw [← List.take_append_drop j (sizes.take k)]
  rw [List.sum_append, List.take_take, min_eq_left h]
  exact Nat.le_add_right _ _

theorem countP_take_sum_lower (sizes : List Nat) (i k : Nat)
    (hk : k < sizes.length) (hPk : (sizes.take k).sum ≤ i) :
    k < (List.range sizes.length).countP (fun j => decide ((sizes.take j).sum ≤ i)) := by
  have hdecomp : List.range sizes.length =
      List.range (k + 1) ++ (List.range (sizes.length - (k + 1))).map (fun x => (k + 1) + x) := by
    rw [← List.range_add]
    congr 1
    omega
  rw [hdecomp, List.countP_append]
  have hall : (List.range (k + 1)).countP (fun j => decide ((sizes.take j).sum ≤ i)) = k + 1 := by
    have h := List.countP_eq_length
      (l := List.range (k + 1)) (p := fun j => decide ((sizes.take j).sum ≤ i))
    rw [List.length_range] at h
    refine h.mpr ?_
    intro a ha
    rw [List.mem_range] at ha
    exact decide_eq_true (le_trans (sum_take_mono sizes (by omega)) hPk)
  omega

theorem countP_take_sum_upper (sizes : List Nat) (i k : Nat)
    (hPk : i < (sizes.take k).sum) :
    (List.range sizes.length).countP (fun j => decide ((sizes.take j).sum ≤ i)) ≤ k := by
  by_cases hk : k ≤ sizes.length
  · have hdecomp : List.range sizes.length =
        List.range k ++ (List.range (sizes.length - k)).map (fun x => k + x) := by
      rw [← List.range_add]
      congr 1
      omega
    rw [hdecomp, List.countP_append]
    have hz : ((List.range (sizes.length - k)).map (fun x => k + x)).countP
        (fun j => decide ((sizes.take j).sum ≤ i)) = 0 := by
      refine List.countP_eq_zero.mpr ?_
      intro a ha
      rw [List.mem_map] at ha
      obtain ⟨x, _, hx⟩ := ha
      have hge : (sizes.take k).sum ≤ (sizes.take a).sum :=
        sum_take_mono sizes (by omega)
      simp only [decide_eq_true_eq]
      omega
    have h1 : (List.range k).countP (fun j => decide ((sizes.take j).sum ≤ i)) ≤ k := by
      have := List.countP_le_length
        (p := fun j => decide ((sizes.take j).sum ≤ i)) (l := List.range k)
      rwa [List.length_range] at this
    omega
  · calc (List.range sizes.length).countP (fun j => decide ((sizes.take j).sum ≤ i))
        ≤ (List.range sizes.length).length := List.countP_le_length _
    _ = sizes.length := List.length_range _
    _ ≤ k := by omega

theorem searchsorted_right_natCast (cumsum : List Nat) (i : Nat) :
    searchsorted_right cumsum (i : Int) = cumsum.countP (fun c => decide (c ≤ i)) := by
  unfold searchsorted_right
  refine List.countP_congr ?_
  intro c _
  simp

theorem pyIndex_nonneg_lt (len : Nat) (i : Int) (h0 : 0 ≤ i) (h1 : i < (len : Int)) :
    pyIndex len i = some i.toNat := by
  unfold pyIndex
  rw [if_pos h0, if_pos h1]

theorem pyIndex_nonneg_ge (len : Nat) (i : Int) (h0 : 0 ≤ i) (h1 : (len : Int) ≤ i) :
    pyIndex len i = none := by
  unfold pyIndex
  rw [if_pos h0, if_neg (not_lt.mpr h1)]

theorem pyIndex_neg_ge (len : Nat) (i : Int) (h0 : i < 0) (h1 : -(len : Int) ≤ i) :
    pyIndex len i = some (i + (len : Int)).toNat := by
  unfold pyIndex
  rw [if_neg (not_le.mpr h0), if_pos h1]

theorem pyIndex_neg_lt (len : Nat) (i : Int) (h1 : i < -(len : Int)) :
    pyIndex len i = none := by
  unfold pyIndex
  rw [if_neg (by omega), if_neg (not_le.mpr h1)]

theorem searchsorted_right_cumsum (sizes : List Nat) (hne : sizes ≠ []) (i : Nat) :
    searchsorted_right (size_cumsum sizes) (i : Int) =
      (List.range sizes.length).countP (fun j => decide ((sizes.take j).sum ≤ i)) := by
  rw [searchsorted_right_natCast, size_cumsum_eq_map sizes hne, List.countP_map]
  rfl

/-- C3: for every `MultiRegionDataset` and every flat index `i` in
`[0, totalLength)`, `__getitem__` resolves, via the right-biased binary
search on the exclusive prefix-sum vector, to exactly one
(dataset, relative index) pair — the unique decomposition
`i = prefixSum[d] + r` with `r < sizes[d]` — correct at exact boundary
indices. -/
theorem multi_getitem_resolves (sizes : List Nat) (hne : sizes ≠ []) (i : Nat)
    (hi : i < multi_len sizes) :
    ∃ d r, multi_getitem sizes (i : Int) = some (d, r) ∧
      d < sizes.length ∧ r < sizes.getD d 0 ∧ i = (sizes.take d).sum + r ∧
      ∀ d' r', d' < sizes.length → r' < sizes.getD d' 0 →
        i = (sizes.take d').sum + r' → d' = d ∧ r' = r := by
  rw [multi_len_eq_sum sizes hne] at hi
  have hnpos : 0 < sizes.length := List.length_pos.mpr hne
  set cnt := (List.range sizes.length).countP
    (fun j => decide ((sizes.take j).sum ≤ i)) with hcnt
  have hcnt1 : 1 ≤ cnt := countP_take_sum_lower sizes i 0 hnpos (by simp)
  have hcntn : cnt ≤ sizes.length := by
    have := List.countP_le_length
      (p := fun j => decide ((sizes.take j).sum ≤ i)) (l := List.range sizes.length)
    rwa [List.length_range] at this
  set d := cnt - 1 with hdd
  have hd : d < sizes.length := by omega
  have hPd : (sizes.take d).sum ≤ i := by
    by_contra h
    push_neg at h
    have hup := countP_take_sum_upper sizes i d h
    rw [← hcnt] at hup
    omega
  have hPsucc : (sizes.take (d + 1)).sum = (sizes.take d).sum + sizes.getD d 0 := by
    have h := List.sum_take_succ sizes d hd
    rw [List.getD_eq_getElem?_getD, List.getElem?_eq_getElem hd]
    simpa using h
  have hPd1 : i < (sizes.take (d + 1)).sum := by
    by_cases hd1 : d + 1 < sizes.length
    · by_contra h
      push_neg at h
      have hlo := countP_take_sum_lower sizes i (d + 1) hd1 h
      rw [← hcnt] at hlo
      omega
    · have hdn : d + 1 = sizes.length := by omega
      rw [hdn, List.take_length]
      exact hi
  have hr : i - (sizes.take d).sum < sizes.getD d 0 := by omega
  have hsearch : searchsorted_right (size_cumsum sizes) (i : Int) = cnt := by
    rw [searchsorted_right_cumsum sizes hne i, ← hcnt]
  have hcsn : (size_cumsum sizes).length = sizes.length := size_cumsum_length sizes hne
  have e1 : pyIndex (size_cumsum sizes).length ((cnt : Int) - 1) = some d := by
    rw [hcsn, pyIndex_nonneg_lt _ _ (by omega) (by omega)]
    congr 1
    omega
  have e3 : pyIndex sizes.length ((cnt : Int) - 1) = some d := by
    rw [pyIndex_nonneg_lt _ _ (by omega) (by omega)]
    congr 1
    omega
  have e2 : (size_cumsum sizes).getD d 0 = (sizes.take d).sum :=
    size_cumsum_getD sizes hne d hd
  have e4 : pyIndex (sizes.getD d 0) ((i : Int) - ((sizes.take d).sum : Int)) =
      some (i - (sizes.take d).sum) := by
    rw [pyIndex_nonneg_lt _ _ (by omega) (by omega)]
    congr 1
    omega
  have egoal : multi_getitem sizes (i : Int) = some (d, i - (sizes.take d).sum) := by
    unfold multi_getitem
    simp only [hsearch, e1, e2, e3, e4, Option.map_some']
  refine ⟨d, i - (sizes.take d).sum, egoal, hd, hr, by omega, ?_⟩
  intro d' r' hd' hr' heq
  have hgd' : sizes.getD d' 0 = sizes.get ⟨d', hd'⟩ := by
    rw [List.getD_eq_getElem?_getD, List.getElem?_eq_getElem hd']
    rfl
  have hPsucc' : (sizes.take (d' + 1)).sum = (sizes.take d').sum + sizes.getD d' 0 := by
    have h := List.sum_take_succ sizes d' hd'
    rw [List.getD_eq_getElem?_getD, List.getElem?_eq_getElem hd']
    simpa using h
  have h1 : (sizes.take d').sum ≤ i := by omega
  have h2 : i < (sizes.take (d' + 1)).sum := by omega
  have hdeq : d' = d := by
    rcases lt_trichotomy d' d with h | h | h
    · exfalso
      have : (sizes.take (d' + 1)).sum ≤ (sizes.take d).sum :=
        sum_take_mono sizes (by omega)
      omega
    · exact h
    · exfalso
      have : (sizes.take (d + 1)).sum ≤ (sizes.take d').sum :=
        sum_take_mono sizes (by omega)
      omega
  refine ⟨hdeq, ?_⟩
  subst hdeq
  omega

theorem size_cumsum_mem_le_sum (sizes : List Nat) (hne : sizes ≠ []) :
    ∀ c ∈ size_cumsum sizes, c ≤ sizes.sum := by
  intro c hc
  rw [size_cumsum_eq_map sizes hne, List.mem_map] at hc
  obtain ⟨k, hk, rfl⟩ := hc
  rw [List.mem_range] at hk
  calc (sizes.take k).sum ≤ (sizes.take sizes.length).sum := sum_take_mono sizes (by omega)
  _ = sizes.sum := by rw [List.take_length]

/-- C5 (amended): a flat index `≥ totalLength` always raises `IndexError`
(`none`); but a *negative* flat index is routed (through the right-biased
search returning 0 and Python's negative indexing on the prefix-sum and
dataset lists) to the *last* constituent dataset, and raises only when the
resulting negative relative index falls outside that dataset's
negative-index range, i.e. exactly when `i < totalLength - 2·lastSize`. -/
theorem multi_getitem_out_of_range (sizes : List Nat) (hne : sizes ≠ []) (i : Int) :
    (((multi_len sizes : Nat) : Int) ≤ i → multi_getitem sizes i = none) ∧
    (i < 0 → (multi_getitem sizes i = none ↔
      i < ((multi_len sizes : Nat) : Int) - 2 * ((sizes.getLastD 0 : Nat) : Int))) := by
  have hnpos : 0 < sizes.length := List.length_pos.mpr hne
  have hcsn := size_cumsum_length sizes hne
  have hsum := multi_len_eq_sum sizes hne
  have hd : sizes.length - 1 < sizes.length := by omega
  have e2 : (size_cumsum sizes).getD (sizes.length - 1) 0 =
      (sizes.take (sizes.length - 1)).sum := size_cumsum_getD sizes hne _ hd
  have hsplit : sizes.sum =
      (sizes.take (sizes.length - 1)).sum + sizes.getD (sizes.length - 1) 0 := by
    have h := List.sum_take_succ sizes (sizes.length - 1) hd
    rw [Nat.sub_add_cancel hnpos, List.take_length] at h
    rw [List.getD_eq_getElem?_getD, List.getElem?_eq_getElem hd]
    simpa using h
  have hlast : sizes.getLastD 0 = sizes.getD (sizes.length - 1) 0 := getLastD_eq_getD sizes
  constructor
  · intro hge
    have hi0 : 0 ≤ i := by omega
    have hcount : searchsorted_right (size_cumsum sizes) i = sizes.length := by
      unfold searchsorted_right
      rw [← hcsn]
      refine List.countP_eq_length.mpr ?_
      intro c hc
      have hcle : c ≤ sizes.sum := size_cumsum_mem_le_sum sizes hne c hc
      rw [hsum] at hge
      simp only [decide_eq_true_eq]
      omega
    have e1 : pyIndex (size_cumsum sizes).length
        ((searchsorted_right (size_cumsum sizes) i : Int) - 1) =
        some (sizes.length - 1) := by
      rw [hcount, hcsn, pyIndex_nonneg_lt _ _ (by omega) (by omega)]
      congr 1
      omega
    have e3 : pyIndex sizes.length
        ((searchsorted_right (size_cumsum sizes) i : Int) - 1) =
        some (sizes.length - 1) := by
      rw [hcount, pyIndex_nonneg_lt _ _ (by omega) (by omega)]
      congr 1
      omega
    have e4 : pyIndex (sizes.getD (sizes.length - 1) 0)
        (i - ((sizes.take (sizes.length - 1)).sum : Int)) = none := by
      rw [hsum] at hge
      exact pyIndex_nonneg_ge _ _ (by omega) (by omega)
    unfold multi_getitem
    simp only [e1, e2, e3, e4, Option.map_none']
  · intro hneg
    have hcount : searchsorted_right (size_cumsum sizes) i = 0 := by
      unfold searchsorted_right
      refine List.countP_eq_zero.mpr ?_
      intro c _
      simp only [decide_eq_true_eq, not_le]
      omega
    have e1 : pyIndex (size_cumsum sizes).length
        ((searchsorted_right (size_cumsum sizes) i : Int) - 1) =
        some (sizes.length - 1) := by
      rw [hcount, hcsn, pyIndex_neg_ge _ _ (by omega) (by omega)]
      congr 1
      omega
    have e3 : pyIndex sizes.length
        ((searchsorted_right (size_cumsum sizes) i : Int) - 1) =
        some (sizes.length - 1) := by
      rw [hcount, pyIndex_neg_ge _ _ (by omega) (by omega)]
      congr 1
      omega
    by_cases hc : -((sizes.getD (sizes.length - 1) 0 : Nat) : Int) ≤
        i - ((sizes.take (sizes.length - 1)).sum : Int)
    · have e4 : pyIndex (sizes.getD (sizes.length - 1) 0)
          (i - ((sizes.take (sizes.length - 1)).sum : Int)) =
          some ((i - ((sizes.take (sizes.length - 1)).sum : Int)) +
            ((sizes.getD (sizes.length - 1) 0 : Nat) : Int)).toNat :=
        pyIndex_neg_ge _ _ (by omega) hc
      unfold multi_getitem
      simp only [e1, e2, e3, e4, Option.map_some']
      constructor
      · intro h
        exact absurd h (by simp)
      · intro h
        rw [hsum, hlast] at h
        omega
    · have e4 : pyIndex (sizes.getD (sizes.length - 1) 0)
          (i - ((sizes.take (sizes.length - 1)).sum : Int)) = none :=
        pyIndex_neg_lt _ _ (by omega)
      unfold multi_getitem
      simp only [e1, e2, e3, e4, Option.map_none']
      constructor
      · intro _
        rw [hsum, hlast]
        omega
      · intro _
        trivial

/-- C5 counterexample: on a union with a single constituent dataset of
filtered size 5, the negative flat index `-1` does *not* raise: it returns
the dataset's last element (resolved position 4), refuting "every negative
index is an indexing error". -/
theorem multi_getitem_neg_index_returns :
    multi_getitem [5] (-1) = some (0, 4) ∧ multi_getitem [5] (-1) ≠ none := by
  constructor
  · decide
  · decide

/-- C5 witness: index `12 ≥ totalLength = 5` raises, and the negative index
`-6 < 5 - 2·5` raises, both obtained from the out-of-range theorem at
concrete inputs. -/
theorem multi_getitem_out_of_range_witness :
    multi_getitem [5] 12 = none ∧ multi_getitem [5] (-6) = none :=
  ⟨(multi_getitem_out_of_range [5] (by decide) 12).1 (by decide),
   ((multi_getitem_out_of_range [5] (by decide) (-6)).2 (by decide)).mpr (by decide)⟩

/-- C3 witness: Scenario D — two constituent filtered sizes 7 and 5 give
`totalLength = 12`, `get 6` resolves to the last element of the first
dataset and `get 7` to the first element of the second; the general
resolution theorem applied at flat index 6. -/
theorem multi_getitem_resolves_witness :
    ([7, 5] : List Nat) ≠ [] ∧ multi_len [7, 5] = 12 ∧
    multi_getitem [7, 5] ((6 : Nat) : Int) = some (0, 6) ∧
    multi_getitem [7, 5] ((7 : Nat) : Int) = some (1, 0) ∧
    (∃ d r, multi_getitem [7, 5] ((6 : Nat) : Int) = some (d, r) ∧
      d < ([7, 5] : List Nat).length ∧ r < ([7, 5] : List Nat).getD d 0 ∧
      6 = (([7, 5] : List Nat).take d).sum + r ∧
      ∀ d' r', d' < ([7, 5] : List Nat).length → r' < ([7, 5] : List Nat).getD d' 0 →
        6 = (([7, 5] : List Nat).take d').sum + r' → d' = d ∧ r' = r) :=
  ⟨by decide, by decide, by decide, by decide,
   multi_getitem_resolves [7, 5] (by decide) 6 (by decide)⟩

/-- C4 counterexample: with tile size 512, a single polygon whose bounding
window is 100×100 (smaller than one tile) leaves the kept list empty and
`zip(*[...])` raises `ValueError` (modelled `none`) — construction *does*
raise when every polygon is excluded, refuting "never raises". -/
theorem multi_dataset_all_excluded_raises :
    multi_dataset_sizes 512 512 [⟨100, 100, 3⟩] = none := by decide

/-- C4 (amended): any polygon whose bounding window is smaller than one
tile in either dimension is excluded from the union entirely and
contributes zero to `totalLength`; construction succeeds without raising
*provided at least one polygon survives the size filter* — when every
polygon is excluded, `zip(*[...])` raises `ValueError`. -/
theorem multi_dataset_excludes_small (max_width max_height : Nat)
    (tissues : List PolyWindow)
    (hsome : ∃ p ∈ tissues, max_width ≤ p.width ∧ max_height ≤ p.height) :
    ∃ sizes, multi_dataset_sizes max_width max_height tissues = some sizes ∧
      sizes ≠ [] ∧
      multi_len sizes =
        ((tissues.filter (keep_window max_width max_height)).map
          (fun p => p.nTiles)).sum ∧
      (∀ p ∈ tissues, (p.width < max_width ∨ p.height < max_height) →
        p ∉ tissues.filter (keep_window max_width max_height)) ∧
      (∀ q : PolyWindow, (q.width < max_width ∨ q.height < max_height) →
        multi_dataset_sizes max_width max_height (q :: tissues) =
          multi_dataset_sizes max_width max_height tissues) := by
  obtain ⟨p, hp, hw, hh⟩ := hsome
  have hkeep : keep_window max_width max_height p = true := by
    unfold keep_window
    rw [Bool.and_eq_true]
    exact ⟨decide_eq_true hw, decide_eq_true hh⟩
  have hmem : p ∈ tissues.filter (keep_window max_width max_height) :=
    List.mem_filter.mpr ⟨hp, hkeep⟩
  have hfne : tissues.filter (keep_window max_width max_height) ≠ [] := by
    intro h
    rw [h] at hmem
    exact absurd hmem (List.not_mem_nil p)
  have hempty : (tissues.filter (keep_window max_width max_height)).isEmpty = false := by
    cases hk : tissues.filter (keep_window max_width max_height) with
    | nil => exact absurd hk hfne
    | cons a l => rfl
  have hmne : (tissues.filter (keep_window max_width max_height)).map
      (fun p => p.nTiles) ≠ [] := by
    intro h
    exact hfne (List.map_eq_nil_iff.mp h)
  refine ⟨(tissues.filter (keep_window max_width max_height)).map (fun p => p.nTiles),
    ?_, hmne, multi_len_eq_sum _ hmne, ?_, ?_⟩
  · simp only [multi_dataset_sizes, hempty, Bool.false_eq_true, if_false]
  · intro p' _ hsmall hmemf
    rw [List.mem_filter] at hmemf
    obtain ⟨_, hk⟩ := hmemf
    unfold keep_window at hk
    rw [Bool.and_eq_true, decide_eq_true_eq, decide_eq_true_eq] at hk
    omega
  · intro q hq
    have hqf : keep_window max_width max_height q = false := by
      rw [Bool.eq_false_iff]
      intro hk
      unfold keep_window at hk
      rw [Bool.and_eq_true, decide_eq_true_eq, decide_eq_true_eq] at hk
      omega
    unfold multi_dataset_sizes
    rw [List.filter_cons_of_neg (by rw [hqf]; exact Bool.false_ne_true)]

/-- C4 witness: one 600×600 polygon survives the 512×512 tile-size filter
while a 100×100 polygon is excluded; the amended construction theorem
applied to that concrete input. -/
theorem multi_dataset_excludes_small_witness :
    (∃ p ∈ [PolyWindow.mk 600 600 7, PolyWindow.mk 100 100 3],
      512 ≤ p.width ∧ 512 ≤ p.height) ∧
    ∃ sizes, multi_dataset_sizes 512 512
        [PolyWindow.mk 600 600 7, PolyWindow.mk 100 100 3] = some sizes ∧
      sizes ≠ [] ∧
      multi_len sizes =
        (([PolyWindow.mk 600 600 7, PolyWindow.mk 100 100 3].filter
          (keep_window 512 512)).map (fun p => p.nTiles)).sum ∧
      (∀ p ∈ [PolyWindow.mk 600 600 7, PolyWindow.mk 100 100 3],
        (p.width < 512 ∨ p.height < 512) →
        p ∉ [PolyWindow.mk 600 600 7, PolyWindow.mk 100 100 3].filter
          (keep_window 512 512)) ∧
      (∀ q : PolyWindow, (q.width < 512 ∨ q.height < 512) →
        multi_dataset_sizes 512 512
            (q :: [PolyWindow.mk 600 600 7, PolyWindow.mk 100 100 3]) =
          multi_dataset_sizes 512 512
            [PolyWindow.mk 600 600 7, PolyWindow.mk 100 100 3]) :=
  ⟨by decide, multi_dataset_excludes_small 512 512
    [PolyWindow.mk 600 600 7, PolyWindow.mk 100 100 3] (by decide)⟩

theorem find_first_intersecting_none (poly : Finset ℕ) (l : List (Finset ℕ))
    (h : find_first_intersecting poly l = none) :
    ∀ q ∈ l, poly ∩ q = ∅ := by
  induction l with
  | nil => intro q hq; exact absurd hq (List.not_mem_nil q)
  | cons a as ih =>
    rw [find_first_intersecting] at h
    by_cases ha : (poly ∩ a).Nonempty
    · rw [if_pos ha] at h
      exact absurd h (by simp)
    · rw [if_neg ha] at h
      rw [Option.map_eq_none'] at h
      intro q hq
      rcases List.mem_cons.mp hq with rfl | hq'
      · exact Finset.not_nonempty_iff_eq_empty.mp ha
      · exact ih h q hq'

theorem find_first_intersecting_some_lt (poly : Finset ℕ) (l : List (Finset ℕ)) (i : Nat)
    (h : find_first_intersecting poly l = some i) : i < l.length := by
  induction l generalizing i with
  | nil => exact absurd h (by rw [find_first_intersecting]; simp)
  | cons a as ih =>
    rw [find_first_intersecting] at h
    by_cases ha : (poly ∩ a).Nonempty
    · rw [if_pos ha] at h
      injection h with h
      simp [← h]
    · rw [if_neg ha] at h
      rw [Option.map_eq_some'] at h
      obtain ⟨j, hj, rfl⟩ := h
      have := ih j hj
      simp only [List.length_cons]
      omega

theorem merge_loop_pairwise_disjoint :
    ∀ n (to_check checked : List (Finset ℕ)), to_check.length ≤ n →
    (∀ c ∈ checked, ∀ t ∈ to_check, c ∩ t = ∅) →
    checked.Pairwise (fun P Q => P ∩ Q = ∅) →
    (merge_loop to_check checked).Pairwise (fun P Q => P ∩ Q = ∅) := by
  intro n
  induction n with
  | zero =>
    intro to_check checked hlen _ h2
    have : to_check = [] := List.eq_nil_of_length_eq_zero (by omega)
    subst this
    rw [merge_loop]
    exact h2
  | succ n ih =>
    intro to_check checked hlen h1 h2
    cases to_check with
    | nil =>
      rw [merge_loop]
      exact h2
    | cons poly rest =>
      rw [merge_loop]
      cases hfind : find_first_intersecting poly rest with
      | some i =>
        have hi : i < rest.length := find_first_intersecting_some_lt poly rest i hfind
        refine ih _ checked ?_ ?_ h2
        · simp only [List.length_set]
          simp only [List.length_cons] at hlen
          omega
        · intro c hc t ht
          rcases List.mem_or_eq_of_mem_set ht with ht' | rfl
          · exact h1 c hc t (List.mem_cons_of_mem poly ht')
          · have hq : rest.getD i ∅ ∈ rest := by
              rw [List.getD_eq_getElem?_getD, List.getElem?_eq_getElem hi]
              exact List.getElem_mem hi
            have hcq : c ∩ rest.getD i ∅ = ∅ :=
              h1 c hc _ (List.mem_cons_of_mem poly hq)
            have hcp : c ∩ poly = ∅ := h1 c hc poly (List.mem_cons_self poly rest)
            rw [Finset.inter_union_distrib_left, hcq, hcp]
            simp
      | none =>
        have hnone := find_first_intersecting_none poly rest hfind
        refine ih rest (checked ++ [poly]) ?_ ?_ ?_
        · simp only [List.length_cons] at hlen
          omega
        · intro c hc t ht
          rcases List.mem_append.mp hc with hc' | hc'
          · exact h1 c hc' t (List.mem_cons_of_mem poly ht)
          · have : c = poly := by
              rcases List.mem_cons.mp hc' with rfl | h
              · rfl
              · exact absurd h (List.not_mem_nil c)
            subst this
            exact hnone t ht
        · rw [List.pairwise_append]
          refine ⟨h2, List.pairwise_singleton _ _, ?_⟩
          intro a ha b hb
          have : b = poly := by
            rcases List.mem_cons.mp hb with rfl | h
            · rfl
            · exact absurd h (List.not_mem_nil b)
          subst this
          exact h1 a ha b (List.mem_cons_self b rest)

/-- C6: the merge loop is exhaustive — whatever finite set of polygons
enters the merge step, no two polygons in the post-merge output intersect
each other. -/
theorem merge_loop_exhaustive (filtered : List (Finset ℕ)) :
    (merge_loop filtered []).Pairwise (fun P Q => ¬(P ∩ Q).Nonempty) := by
  have h := merge_loop_pairwise_disjoint filtered.length filtered [] le_rfl
    (by intro c hc; exact absurd hc (List.not_mem_nil c)) List.Pairwise.nil
  refine h.imp ?_
  intro P Q hPQ
  rw [hPQ]
  simp

/-- C10: the merge loop terminates on every finite input: each iteration
removes exactly one element from the work list (the in-place union keeps
the list length unchanged after the pop), so the loop runs exactly as many
iterations as there are filtered polygons. -/
theorem merge_loop_iterations (to_check checked : List (Finset ℕ)) :
    merge_loop_iters to_check checked = to_check.length ∧
    (∀ (poly : Finset ℕ) (rest : List (Finset ℕ)) (i : Nat),
      find_first_intersecting poly rest = some i →
      (rest.set i (rest.getD i ∅ ∪ poly)).length = rest.length) := by
  constructor
  · have H : ∀ n (tc ck : List (Finset ℕ)), tc.length = n →
        merge_loop_iters tc ck = tc.length := by
      intro n
      induction n with
      | zero =>
        intro tc ck hn
        have : tc = [] := List.eq_nil_of_length_eq_zero hn
        subst this
        rw [merge_loop_iters]
        simp
      | succ n ih =>
        intro tc ck hn
        cases tc with
        | nil => simp at hn
        | cons poly rest =>
          simp only [List.length_cons] at hn
          rw [merge_loop_iters]
          cases hfind : find_first_intersecting poly rest with
          | some i =>
            show merge_loop_iters (rest.set i (rest.getD i ∅ ∪ poly)) ck + 1 =
              (poly :: rest).length
            rw [ih _ ck (by simp only [List.length_set]; omega)]
            simp only [List.length_set, List.length_cons]
          | none =>
            show merge_loop_iters rest (ck ++ [poly]) + 1 = (poly :: rest).length
            rw [ih rest (ck ++ [poly]) (by omega)]
            simp only [List.length_cons]
    exact H to_check.length to_check checked rfl
  · intro poly rest i _
    exact List.length_set rest i _

/-- C10 witness: on the concrete work list `[{0}, {0}]` the loop runs
exactly two iterations, and a successful first-intersection merge on the
list `[{0}]` preserves its length. -/
theorem merge_loop_iterations_witness :
    merge_loop_iters [({0} : Finset ℕ), {0}] [] =
      ([({0} : Finset ℕ), {0}] : List (Finset ℕ)).length ∧
    ([({0} : Finset ℕ)].set 0 ([({0} : Finset ℕ)].getD 0 ∅ ∪ {0})).length =
      [({0} : Finset ℕ)].length :=
  ⟨(merge_loop_iterations [({0} : Finset ℕ), {0}] []).1,
   (merge_loop_iterations [({0} : Finset ℕ), {0}] []).2 {0} [{0}] 0 (by decide)⟩

theorem extract_go_spec (target : Nat) :
    ∀ (k size level : Nat),
      level ≤ extract_go target k size level ∧
      extract_go target k size level ≤ level + k ∧
      (∀ j, level ≤ j → j < extract_go target k size level →
        target < size / 2 ^ (j - level)) ∧
      (size / 2 ^ (extract_go target k size level - level) ≤ target ∨
        extract_go target k size level = level + k) := by
  intro k
  induction k with
  | zero =>
    intro size level
    refine ⟨le_rfl, by simp [extract_go], ?_, Or.inr (by simp [extract_go])⟩
    intro j hj hjr
    rw [extract_go] at hjr
    omega
  | succ k ih =>
    intro size level
    rw [extract_go]
    by_cases h : target < size
    · rw [if_pos h]
      obtain ⟨ih1, ih2, ih3, ih4⟩ := ih (size / 2) (level + 1)
      have hdiv : ∀ m : Nat, size / 2 / 2 ^ m = size / 2 ^ (m + 1) := by
        intro m
        rw [Nat.div_div_eq_div_mul, pow_succ, Nat.mul_comm]
      refine ⟨by omega, by omega, ?_, ?_⟩
      · intro j hj hjr
        rcases Nat.eq_or_lt_of_le hj with rfl | hj'
        · simpa using h
        · have h3 := ih3 j (by omega) hjr
          rw [hdiv] at h3
          have : j - (level + 1) + 1 = j - level := by omega
          rwa [this] at h3
      · rcases ih4 with h4 | h4
        · left
          rw [hdiv] at h4
          have : extract_go target k (size / 2) (level + 1) - (level + 1) + 1 =
              extract_go target k (size / 2) (level + 1) - level := by omega
          rwa [this] at h4
        · right
          omega
    · rw [if_neg h]
      refine ⟨le_rfl, by omega, ?_, Or.inl (by simpa using not_lt.mp h)⟩
      intro j hj hjr
      omega

/-- C7: for every pyramid, the chosen foreground-detection level is the
smallest level whose longer edge (the code's iterated floor-halving of
`max(width, height)`) is at most the target processing size, capped at the
coarsest available level `levels - 1` when no level satisfies the bound. -/
theorem determine_tissue_extract_level_smallest
    (levels max_height max_width desired : Nat) :
    determine_tissue_extract_level levels max_height max_width desired ≤ levels - 1 ∧
    (∀ j, j < determine_tissue_extract_level levels max_height max_width desired →
      desired < max max_width max_height / 2 ^ j) ∧
    (max max_width max_height /
        2 ^ determine_tissue_extract_level levels max_height max_width desired ≤
        desired ∨
      determine_tissue_extract_level levels max_height max_width desired =
        levels - 1) := by
  obtain ⟨h1, h2, h3, h4⟩ := extract_go_spec desired (levels - 1) (max max_width max_height) 0
  unfold determine_tissue_extract_level
  refine ⟨by omega, ?_, ?_⟩
  · intro j hj
    have := h3 j (Nat.zero_le j) hj
    simpa using this
  · rcases h4 with h | h
    · left
      simpa using h
    · right
      omega

theorem otsu_input_eq_filter (image : List Nat) :
    otsu_input image = image.filter (fun v => decide (75 < v) && decide (v < 250)) := by
  induction image with
  | nil => rfl
  | cons a l ih =>
    unfold otsu_input mask_select extr_mask at *
    simp only [List.map_cons, List.zip_cons_cons, List.filter_cons]
    cases h : decide (75 < a) && decide (a < 250) with
    | false => simp [h, ih]
    | true => simp [h, ih]

/-- C8: the Otsu threshold input is exactly the grayscale pixels with
intensity strictly between 75 and 250 (in image order), and the resulting
binarization marks a pixel of the full grayscale image as foreground (1)
exactly when its value is at most the threshold. -/
theorem otsu_restricted_and_binarize (otsu : List Nat → ℚ) (image : List Nat) :
    (∀ v ∈ otsu_input image, 75 < v ∧ v < 250) ∧
    otsu_input image = image.filter (fun v => decide (75 < v) && decide (v < 250)) ∧
    (foreground_binarize otsu image).length = image.length ∧
    (∀ i, i < image.length →
      ((foreground_binarize otsu image).getD i 0 = 1 ↔
        (image.getD i 0 : ℚ) ≤ otsu (otsu_input image))) := by
  refine ⟨?_, otsu_input_eq_filter image, ?_, ?_⟩
  · intro v hv
    rw [otsu_input_eq_filter image, List.mem_filter] at hv
    obtain ⟨_, hdec⟩ := hv
    rw [Bool.and_eq_true, decide_eq_true_eq, decide_eq_true_eq] at hdec
    exact hdec
  · unfold foreground_binarize thresh_mask
    rw [List.length_map]
  · intro i hi
    have h1 : (foreground_binarize otsu image).getD i 0 =
        if (image.getD i 0 : ℚ) ≤ otsu (otsu_input image) then 1 else 0 := by
      unfold foreground_binarize thresh_mask
      rw [List.getD_eq_getElem?_getD, List.getElem?_map, List.getElem?_eq_getElem hi]
      rw [List.getD_eq_getElem?_getD, List.getElem?_eq_getElem hi]
      rfl
    rw [h1]
    by_cases h : (image.getD i 0 : ℚ) ≤ otsu (otsu_input image)
    · simp [h]
    · simp [h]

/-- C8 witness: for the concrete image `[80, 200]` and the constant
threshold function 100, pixel 0 (value 80 ≤ 100) is marked foreground; the
binarization equivalence applied at index 0. -/
theorem otsu_restricted_and_binarize_witness :
    (0 : Nat) < ([80, 200] : List Nat).length ∧
    ((foreground_binarize (fun _ => (100 : ℚ)) [80, 200]).getD 0 0 = 1 ↔
      ((([80, 200] : List Nat).getD 0 0 : Nat) : ℚ) ≤
        (fun _ => (100 : ℚ)) (otsu_input [80, 200])) :=
  ⟨by decide,
   (otsu_restricted_and_binarize (fun _ => (100 : ℚ)) [80, 200]).2.2.2 0 (by decide)⟩

/-- C9 counterexample: a merged polygon with bounding box 20×1 has aspect
ratio exactly 20, and the filter returns `false` (the comparison is the
strict `< 20`), so a ratio of exactly 20 is dropped — refuting "polygons
with ratio exactly 20 or below are kept". -/
theorem filter_by_shape_ratio20_dropped :
    filter_by_shape 0 0 20 1 = false ∧ ((20 : ℚ) - 0) / ((1 : ℚ) - 0) = 20 := by
  constructor
  · norm_num [filter_by_shape]
  · norm_num

/-- C9 (amended): for every bounding box with positive extent in both
directions, the shape filter keeps the polygon iff the aspect ratio
(longer bound divided by shorter bound) is strictly less than 20, and
drops it iff the ratio is at least 20 (so ratio exactly 20 is dropped). -/
theorem filter_by_shape_iff (xmin ymin xmax ymax : ℚ)
    (_hw : 0 < xmax - xmin) (_hh : 0 < ymax - ymin) :
    (filter_by_shape xmin ymin xmax ymax = true ↔
      max (xmax - xmin) (ymax - ymin) / min (xmax - xmin) (ymax - ymin) < 20) ∧
    (filter_by_shape xmin ymin xmax ymax = false ↔
      20 ≤ max (xmax - xmin) (ymax - ymin) / min (xmax - xmin) (ymax - ymin)) := by
  simp only [filter_by_shape]
  by_cases hcase : ymax - ymin < xmax - xmin
  · rw [if_pos hcase, max_eq_left hcase.le, min_eq_right hcase.le]
    constructor
    · simp
    · simp [not_lt]
  · push_neg at hcase
    rw [if_neg (not_lt.mpr hcase), max_eq_right hcase, min_eq_left hcase]
    constructor
    · simp
    · simp [not_lt]

/-- C9 witness: a 2×1 bounding box (ratio 2 < 20) is kept; the amended
equivalence applied at that concrete box. -/
theorem filter_by_shape_iff_witness :
    (0 : ℚ) < 2 - 0 ∧ (0 : ℚ) < 1 - 0 ∧
    ((filter_by_shape 0 0 2 1 = true ↔
      max ((2 : ℚ) - 0) ((1 : ℚ) - 0) / min ((2 : ℚ) - 0) ((1 : ℚ) - 0) < 20) ∧
     (filter_by_shape 0 0 2 1 = false ↔
      20 ≤ max ((2 : ℚ) - 0) ((1 : ℚ) - 0) / min ((2 : ℚ) - 0) ((1 : ℚ) - 0))) :=
  ⟨by norm_num, by norm_num, filter_by_shape_iff 0 0 2 1 (by norm_num) (by norm_num)⟩

theorem getDq_mem (l : List ℚ) (k : Nat) (hk : k < l.length) : l.getD k 0 ∈ l := by
  rw [List.getD_eq_getElem?_getD, List.getElem?_eq_getElem hk]
  exact List.getElem_mem hk

theorem argmax_go_spec (l : List ℚ) :
    ∀ (best : Nat) (bestV : ℚ) (i : Nat),
      (argmax_go best bestV i l = best ∧ ∀ v ∈ l, v ≤ bestV) ∨
      (∃ j, j < l.length ∧ argmax_go best bestV i l = i + j ∧
        bestV < l.getD j 0 ∧
        (∀ k, k < l.length → l.getD k 0 ≤ l.getD j 0) ∧
        (∀ k, k < j → l.getD k 0 < l.getD j 0)) := by
  induction l with
  | nil =>
    intro best bestV i
    left
    refine ⟨rfl, ?_⟩
    intro v hv
    exact absurd hv (List.not_mem_nil v)
  | cons v vs ih =>
    intro best bestV i
    rw [argmax_go]
    by_cases h : bestV < v
    · rw [if_pos h]
      rcases ih i v (i + 1) with ⟨heq, hall⟩ | ⟨j, hj, heq, hgt, hmax, hbefore⟩
      · right
        refine ⟨0, by simp, by rw [heq]; omega, by simpa using h, ?_, ?_⟩
        · intro k hk
          cases k with
          | zero => simp
          | succ k =>
            simp only [List.getD_cons_succ, List.getD_cons_zero]
            exact hall _ (getDq_mem vs k (by simpa using hk))
        · intro k hk
          omega
      · right
        refine ⟨j + 1, by simpa using hj, by rw [heq]; omega, ?_, ?_, ?_⟩
        · simp only [List.getD_cons_succ]
          exact lt_trans h hgt
        · intro k hk
          cases k with
          | zero => simpa using le_of_lt hgt
          | succ k =>
            simp only [List.getD_cons_succ]
            exact hmax k (by simpa using hk)
        · intro k hk
          cases k with
          | zero => simpa using hgt
          | succ k =>
            simp only [List.getD_cons_succ]
            exact hbefore k (by omega)
    · rw [if_neg h]
      have hvle : v ≤ bestV := not_lt.mp h
      rcases ih best bestV (i + 1) with ⟨heq, hall⟩ | ⟨j, hj, heq, hgt, hmax, hbefore⟩
      · left
        refine ⟨heq, ?_⟩
        intro u hu
        rcases List.mem_cons.mp hu with rfl | hu'
        · exact hvle
        · exact hall u hu'
      · right
        refine ⟨j + 1, by simpa using hj, by rw [heq]; omega, ?_, ?_, ?_⟩
        · simp only [List.getD_cons_succ]
          exact hgt
        · intro k hk
          cases k with
          | zero =>
            simp only [List.getD_cons_succ, List.getD_cons_zero]
            exact le_of_lt (lt_of_le_of_lt hvle hgt)
          | succ k =>
            simp only [List.getD_cons_succ]
            exact hmax k (by simpa using hk)
        · intro k hk
          cases k with
          | zero =>
            simp only [List.getD_cons_succ, List.getD_cons_zero]
            exact lt_of_le_of_lt hvle hgt
          | succ k =>
            simp only [List.getD_cons_succ]
            exact hbefore k (by omega)

theorem np_argmax_spec (row : List ℚ) (hne : row ≠ []) :
    np_argmax row < row.length ∧
    (∀ k, k < row.length → row.getD k 0 ≤ row.getD (np_argmax row) 0) ∧
    (∀ k, k < np_argmax row → row.getD k 0 < row.getD (np_argmax row) 0) := by
  cases row with
  | nil => exact absurd rfl hne
  | cons v vs =>
    rw [np_argmax]
    rcases argmax_go_spec vs 0 v 1 with ⟨heq, hall⟩ | ⟨j, hj, heq, hgt, hmax, hbefore⟩
    · rw [heq]
      refine ⟨by simp, ?_, by intro k hk; omega⟩
      intro k hk
      cases k with
      | zero => simp
      | succ k =>
        simp only [List.getD_cons_succ, List.getD_cons_zero]
        exact hall _ (getDq_mem vs k (by simpa using hk))
    · rw [heq]
      have h1j : 1 + j = j + 1 := by omega
      rw [h1j]
      refine ⟨by simp; omega, ?_, ?_⟩
      · intro k hk
        cases k with
        | zero =>
          simp only [List.getD_cons_succ, List.getD_cons_zero]
          exact le_of_lt hgt
        | succ k =>
          simp only [List.getD_cons_succ]
          exact hmax k (by simpa using hk)
      · intro k hk
        cases k with
        | zero =>
          simp only [List.getD_cons_succ, List.getD_cons_zero]
          exact hgt
        | succ k =>
          simp only [List.getD_cons_succ]
          exact hbefore k (by omega)

theorem foldl_max_mem (vs : List Nat) : ∀ v : Nat,
    vs.foldl max v = v ∨ vs.foldl max v ∈ vs := by
  induction vs with
  | nil => intro v; left; rfl
  | cons a as ih =>
    intro v
    rw [List.foldl_cons]
    rcases ih (max v a) with h | h
    · rw [h]
      rcases max_cases v a with ⟨he, _⟩ | ⟨he, _⟩
      · left; exact he
      · right; rw [he]; exact List.mem_cons_self a as
    · right
      exact List.mem_cons_of_mem a h

theorem le_foldl_max (vs : List Nat) : ∀ v : Nat,
    v ≤ vs.foldl max v ∧ ∀ c ∈ vs, c ≤ vs.foldl max v := by
  induction vs with
  | nil =>
    intro v
    refine ⟨le_rfl, ?_⟩
    intro c hc
    exact absurd hc (List.not_mem_nil c)
  | cons a as ih =>
    intro v
    rw [List.foldl_cons]
    obtain ⟨ih1, ih2⟩ := ih (max v a)
    refine ⟨le_trans (le_max_left v a) ih1, ?_⟩
    intro c hc
    rcases List.mem_cons.mp hc with rfl | hc'
    · exact le_trans (le_max_right v c) ih1
    · exact ih2 c hc'

/-- C1 counterexample: three tiles vote `[0, 0, 2]` (probability rows
`[1,0,0,0], [1,0,0,0], [0,0,1,0]`): the class with the maximum vote count
is 0, but `classify` returns `int(np.max(classes)) = 2` — the decision is
*not* the majority-vote class. -/
theorem classify_decision_not_majority :
    classify_decision [[1, 0, 0, 0], [1, 0, 0, 0], [0, 0, 1, 0]] = 2 ∧
    spec_majority_decision 4
      (classify_classes [[1, 0, 0, 0], [1, 0, 0, 0], [0, 0, 1, 0]]) = 0 ∧
    classify_decision [[1, 0, 0, 0], [1, 0, 0, 0], [0, 0, 1, 0]] ≠
      spec_majority_decision 4
        (classify_classes [[1, 0, 0, 0], [1, 0, 0, 0], [0, 0, 1, 0]]) := by
  refine ⟨by decide, by decide, by decide⟩

/-- C1 (amended): each processed tile votes for the arg-max of its
predicted probability vector (ties broken by the lowest class index), and
the slide decision returned by `classify` is the *maximum class index
receiving at least one vote* (`np.max` over the votes) — it is itself a
vote and an upper bound of all votes. -/
theorem classify_decision_is_max_vote (probas : List (List ℚ)) (hne : probas ≠ []) :
    classify_decision probas ∈ classify_classes probas ∧
    (∀ c ∈ classify_classes probas, c ≤ classify_decision probas) ∧
    (∀ row ∈ probas, row ≠ [] →
      np_argmax row < row.length ∧
      (∀ k, k < row.length → row.getD k 0 ≤ row.getD (np_argmax row) 0) ∧
      (∀ k, k < np_argmax row → row.getD k 0 < row.getD (np_argmax row) 0)) := by
  refine ⟨?_, ?_, ?_⟩
  · cases hp : probas with
    | nil => exact absurd hp hne
    | cons p ps =>
      unfold classify_decision classify_classes np_max_nat
      simp only [List.map_cons]
      rcases foldl_max_mem (ps.map np_argmax) (np_argmax p) with h | h
      · rw [h]
        exact List.mem_cons_self _ _
      · exact List.mem_cons_of_mem _ h
  · cases hp : probas with
    | nil => exact absurd hp hne
    | cons p ps =>
      unfold classify_decision classify_classes np_max_nat
      simp only [List.map_cons]
      intro c hc
      rcases List.mem_cons.mp hc with rfl | hc'
      · exact (le_foldl_max (ps.map np_argmax) (np_argmax p)).1
      · exact (le_foldl_max (ps.map np_argmax) (np_argmax p)).2 c hc'
  · intro row _ hrow
    exact np_argmax_spec row hrow

/-- C1 witness: the amended decision theorem applied to the concrete
probability matrix `[[1,0,0,0], [1,0,0,0], [0,0,1,0]]` (a non-empty
dataset), whose decision 2 is a vote and an upper bound of all votes. -/
theorem classify_decision_is_max_vote_witness :
    ([[1, 0, 0, 0], [1, 0, 0, 0], [0, 0, 1, 0]] : List (List ℚ)) ≠ [] ∧
    (classify_decision [[1, 0, 0, 0], [1, 0, 0, 0], [0, 0, 1, 0]] ∈
      classify_classes [[1, 0, 0, 0], [1, 0, 0, 0], [0, 0, 1, 0]] ∧
    (∀ c ∈ classify_classes [[1, 0, 0, 0], [1, 0, 0, 0], [0, 0, 1, 0]],
      c ≤ classify_decision [[1, 0, 0, 0], [1, 0, 0, 0], [0, 0, 1, 0]]) ∧
    (∀ row ∈ ([[1, 0, 0, 0], [1, 0, 0, 0], [0, 0, 1, 0]] : List (List ℚ)), row ≠ [] →
      np_argmax row < row.length ∧
      (∀ k, k < row.length → row.getD k 0 ≤ row.getD (np_argmax row) 0) ∧
      (∀ k, k < np_argmax row → row.getD k 0 < row.getD (np_argmax row) 0))) :=
  ⟨by simp, classify_decision_is_max_vote [[1, 0, 0, 0], [1, 0, 0, 0], [0, 0, 1, 0]]
    (by simp)⟩

/-- C2: the orchestrator catches any error raised during a slide's
processing (foreground detection, dataset building or inference — anything
inside the `try`), substitutes the deterministic fallback row `[1,0,0,0]`
whose entire vote mass sits on class 0, lets no exception escape (the loop
is total and produces one row per slide, in order), and continues to the
next slide (successful slides before and after are processed normally). -/
theorem main_loop_fallback (results : List (Except String (List (Nat × Nat)))) :
    (main_loop results).length = results.length ∧
    (∀ (i : Nat) (e : String), results[i]? = some (Except.error e) →
      (main_loop results)[i]? = some [1, 0, 0, 0] ∧
      ([1, 0, 0, 0] : List Nat).getD 0 0 = ([1, 0, 0, 0] : List Nat).sum) ∧
    (∀ (i : Nat) (d : List (Nat × Nat)), results[i]? = some (Except.ok d) →
      (main_loop results)[i]? = some ((List.range 4).map (fun c => dict_get d c 0))) := by
  refine ⟨by unfold main_loop; rw [List.length_map], ?_, ?_⟩
  · intro i e h
    constructor
    · unfold main_loop
      rw [List.getElem?_map, h]
      rfl
    · rfl
  · intro i d h
    unfold main_loop
    rw [List.getElem?_map, h]
    rfl

/-- C2 witness: a batch of three slides where the middle one raises — the
failing slide gets the fallback row `[1,0,0,0]`, the surrounding slides
are processed normally, and all three rows are produced. -/
theorem main_loop_fallback_witness :
    (main_loop [Except.ok [(2, 10)], Except.error "corrupt tile",
        Except.ok [(1, 3)]]).length =
      ([Except.ok [(2, 10)], Except.error "corrupt tile",
        (Except.ok [(1, 3)] : Except String (List (Nat × Nat)))] : List _).length ∧
    (main_loop [Except.ok [(2, 10)], Except.error "corrupt tile",
        Except.ok [(1, 3)]])[1]? = some [1, 0, 0, 0] ∧
    (main_loop [Except.ok [(2, 10)], Except.error "corrupt tile",
        Except.ok [(1, 3)]])[0]? =
      some ((List.range 4).map (fun c => dict_get [(2, 10)] c 0)) :=
  ⟨(main_loop_fallback [Except.ok [(2, 10)], Except.error "corrupt tile",
      Except.ok [(1, 3)]]).1,
   ((main_loop_fallback [Except.ok [(2, 10)], Except.error "corrupt tile",
      Except.ok [(1, 3)]]).2.1 1 "corrupt tile" (by rfl)).1,
   (main_loop_fallback [Except.ok [(2, 10)], Except.error "corrupt tile",
      Except.ok [(1, 3)]]).2.2 0 [(2, 10)] (by rfl)⟩

end WeakSeg
